import Mathlib

/-!
Verification development for the phrase tokenizer core
(tensorflow_text/core/kernels/phrase_tokenizer.h).

The vocabulary type `StringVocab` is embedded directly from the header:
its constructor builds a string-to-id hash index over the stored phrase
list, and the lookup methods are translated method by method.  The hash
map member `index_map_` (an `absl::flat_hash_map<string_view, int>`) is
modelled as an association list with pairwise-distinct keys; the insert
operation `insertIdx` renders the insert-or-assign semantics of
`index_map_[key] = value`, and `Size` is the number of stored keys,
matching `index_map_.size()`.

The bodies of `PhraseTokenizer::Tokenize`, `Detokenize` and
`DetokenizeToTokens` are declared in the header but their definitions are
not part of the available sources, so they are modelled from the
specification text, as marked in their doc comments.
-/

set_option maxRecDepth 4000

/-- One binding of the string-to-id index: a phrase key and its id value
(ids are C++ `int`, modelled as `Int`). -/
abbrev IndexEntry := String × Int

/-- Insert-or-assign on the modelled hash map, rendering
`index_map_[key] = value`: any previous binding of the key is replaced. -/
def insertIdx (m : List IndexEntry) (k : String) (v : Int) : List IndexEntry :=
  (k, v) :: m.filter (fun p => !(p.1 == k))

/-- Lookup in the modelled hash map, rendering `index_map_.find(key)`. -/
def mapLookup (m : List IndexEntry) (k : String) : Option Int :=
  (m.find? (fun p => p.1 == k)).map Prod.snd

/-- The constructor loop of `StringVocab::StringVocab`:
`for (int i = 0; i < vocab.size(); ++i) index_map_[vocab_[i]] = i;`. -/
def buildIndex (vocab : List String) : List IndexEntry :=
  vocab.enum.foldl (fun m p => insertIdx m p.2 (Int.ofNat p.1)) []

/-- Embedding of `StringVocab`: the stored phrase list `vocab_` and the
string-to-id index `index_map_`. -/
structure StringVocab where
  vocab_ : List String
  index_map_ : List IndexEntry

/-- `StringVocab(vocab)`: copies the phrase list and builds the index. -/
def StringVocab.ofList (vocab : List String) : StringVocab :=
  { vocab_ := vocab, index_map_ := buildIndex vocab }

/-- Modelled from the spec: the `LookupStatus` type of the wordpiece
tokenizer header is not among the available sources; per the spec,
`Contains` "never fails", and the default-constructed status
`LookupStatus()` denotes success with an empty message. -/
structure LookupStatus where
  success : Bool
  error_msg : String
deriving DecidableEq

/-- The default-constructed `LookupStatus()`: success. -/
def LookupStatus.ok : LookupStatus := { success := true, error_msg := "" }

/-- `StringVocab::Contains`: writes `index_map_.contains(key)` to the out
parameter and returns `LookupStatus()`. -/
def StringVocab.Contains (v : StringVocab) (key : String) : LookupStatus × Bool :=
  (LookupStatus.ok, v.index_map_.any (fun p => p.1 == key))

/-- `StringVocab::LookupId`: finds the key in `index_map_`, returning the
id or `none`. -/
def StringVocab.LookupId (v : StringVocab) (key : String) : Option Int :=
  mapLookup v.index_map_ key

/-- `StringVocab::LookupWord`: returns `none` when
`vocab_id >= vocab_.size() || vocab_id < 0`, else `vocab_[vocab_id]`. -/
def StringVocab.LookupWord (v : StringVocab) (vocab_id : Int) : Option String :=
  if (v.vocab_.length : Int) ≤ vocab_id ∨ vocab_id < 0 then none
  else v.vocab_[vocab_id.toNat]?

/-- `StringVocab::Size`: the number of keys of `index_map_`
(`index_map_.size()`). -/
def StringVocab.Size (v : StringVocab) : Int := v.index_map_.length

/-- Index of the last occurrence of `s` in `l`, or `none` when `s` does
not occur: the reference value of the string-to-id index, since in the
constructor loop a later assignment to a duplicate key overwrites an
earlier one. -/
def lastIdx (l : List String) (s : String) : Option Nat :=
  match l with
  | [] => none
  | x :: xs =>
    match lastIdx xs s with
    | some j => some (j + 1)
    | none => if x = s then some 0 else none

theorem find?_filter_of_imp (m : List IndexEntry) (p q : IndexEntry → Bool)
    (h : ∀ a, p a = true → q a = true) :
    (m.filter q).find? p = m.find? p := by
  induction m with
  | nil => rfl
  | cons a m ih =>
    by_cases hq : q a = true
    · by_cases hp : p a = true
      · simp [List.filter_cons, hq, List.find?, hp]
      · simp only [List.filter_cons, hq, if_true, List.find?]
        simp only [hp]
        simpa [List.find?, hp] using ih
    · have hp : p a = false := by
        cases hpa : p a with
        | false => rfl
        | true => exact absurd (h a hpa) hq
      simp [List.filter_cons, hq, List.find?, hp, ih]

theorem mapLookup_insertIdx (m : List IndexEntry) (k : String) (v : Int) (s : String) :
    mapLookup (insertIdx m k v) s = if s = k then some v else mapLookup m s := by
  unfold mapLookup insertIdx
  by_cases hsk : s = k
  · subst hsk
    simp [List.find?]
  · have hks : (k == s) = false := by
      simp [beq_iff_eq]
      exact fun h => hsk h.symm
    simp only [List.find?, hks, if_neg hsk]
    rw [find?_filter_of_imp]
    intro a ha
    simp only [beq_iff_eq] at ha
    simp [ha, hsk]

theorem mapLookup_nil (s : String) : mapLookup [] s = none := rfl

theorem mapLookup_buildLoop (l : List String) :
    ∀ (k : Nat) (m : List IndexEntry) (s : String),
    mapLookup ((List.enumFrom k l).foldl (fun m p => insertIdx m p.2 (Int.ofNat p.1)) m) s =
      (match lastIdx l s with
       | some j => some (Int.ofNat (k + j))
       | none => mapLookup m s) := by
  induction l with
  | nil => intro k m s; rfl
  | cons x xs ih =>
    intro k m s
    simp only [List.enumFrom, List.foldl_cons]
    rw [ih (k + 1) (insertIdx m x (Int.ofNat k)) s]
    rw [mapLookup_insertIdx]
    cases hx : lastIdx xs s with
    | some j =>
      simp only [lastIdx, hx]
      congr 1
      congr 1
      omega
    | none =>
      simp only [lastIdx, hx]
      by_cases hxs : x = s
      · simp [hxs, if_pos rfl]
      · have : ¬ s = x := fun h => hxs h.symm
        simp [hxs, this]

theorem mapLookup_buildIndex (l : List String) (s : String) :
    mapLookup (buildIndex l) s = (lastIdx l s).map Int.ofNat := by
  have h := mapLookup_buildLoop l 0 [] s
  unfold buildIndex
  rw [show l.enum = List.enumFrom 0 l from rfl]
  rw [h]
  cases hx : lastIdx l s with
  | some j => simp
  | none => rfl

theorem lastIdx_eq_none_iff (l : List String) (s : String) :
    lastIdx l s = none ↔ s ∉ l := by
  induction l with
  | nil => simp [lastIdx]
  | cons x xs ih =>
    simp only [lastIdx, List.mem_cons]
    cases hx : lastIdx xs s with
    | some j =>
      simp only []
      constructor
      · intro h; exact absurd h (by simp)
      · intro h
        exfalso
        have : s ∈ xs := by
          by_contra hmem
          rw [← ih] at hmem
          rw [hx] at hmem
          exact Option.noConfusion hmem
        exact h (Or.inr this)
    | none =>
      have hmem : s ∉ xs := (ih).mp hx
      by_cases hxs : x = s
      · simp [hxs, hmem]
      · simp only [if_neg hxs]
        constructor
        · intro _ h
          rcases h with h | h
          · exact hxs h.symm
          · exact hmem h
        · intro _
          trivial

theorem int_ofNat_cast (n : Nat) : Int.ofNat n = (n : Int) := rfl

theorem getElem?_ne_of_not_mem (l : List String) (s : String) (h : s ∉ l) :
    ∀ j : Nat, l[j]? ≠ some s := by
  intro j hj
  rcases List.getElem?_eq_some_iff.mp hj with ⟨hlt, hget⟩
  exact h (hget ▸ List.getElem_mem hlt)

theorem lastIdx_eq_some_iff (l : List String) (s : String) :
    ∀ i : Nat, lastIdx l s = some i ↔
      (l[i]? = some s ∧ ∀ j : Nat, i < j → l[j]? ≠ some s) := by
  induction l with
  | nil =>
    intro i
    simp [lastIdx]
  | cons x xs ih =>
    intro i
    cases hx : lastIdx xs s with
    | some j =>
      have hj := (ih j).mp hx
      constructor
      · intro h
        simp only [lastIdx, hx] at h
        have hi : i = j + 1 := by
          injection h with h
          omega
        subst hi
        refine ⟨by simpa using hj.1, ?_⟩
        intro m hm
        cases m with
        | zero => omega
        | succ m' =>
          have hjlt : j < m' := by omega
          simpa using hj.2 m' hjlt
      · rintro ⟨h1, h2⟩
        simp only [lastIdx, hx]
        cases i with
        | zero =>
          exfalso
          have hget : (x :: xs)[j + 1]? = some s := by simpa using hj.1
          exact h2 (j + 1) (by omega) hget
        | succ m =>
          have h1' : xs[m]? = some s := by simpa using h1
          have h2' : ∀ m' : Nat, m < m' → xs[m']? ≠ some s := by
            intro m' hm' hgm
            exact h2 (m' + 1) (by omega) (by simpa using hgm)
          have hm := (ih m).mpr ⟨h1', h2'⟩
          rw [hx] at hm
          injection hm with hm
          simp [hm]
    | none =>
      have hmem : s ∉ xs := (lastIdx_eq_none_iff xs s).mp hx
      have hnm : ∀ m, xs[m]? ≠ some s := getElem?_ne_of_not_mem xs s hmem
      constructor
      · intro h
        simp only [lastIdx, hx] at h
        by_cases hxs : x = s
        · rw [if_pos hxs] at h
          have hi : i = 0 := by
            injection h with h
            omega
          subst hi
          refine ⟨by simpa using hxs, ?_⟩
          intro m hm
          cases m with
          | zero => omega
          | succ m' => simpa using hnm m'
        · rw [if_neg hxs] at h
          exact absurd h (by simp)
      · rintro ⟨h1, h2⟩
        simp only [lastIdx, hx]
        cases i with
        | zero =>
          have hxs : x = s := by simpa using h1
          rw [if_pos hxs]
        | succ m =>
          exfalso
          exact hnm m (by simpa using h1)

theorem lookupId_eq_lastIdx (vocab : List String) (s : String) :
    (StringVocab.ofList vocab).LookupId s = (lastIdx vocab s).map Int.ofNat :=
  mapLookup_buildIndex vocab s

theorem lookupId_isSome_iff_mem (vocab : List String) (s : String) :
    (∃ i : Int, (StringVocab.ofList vocab).LookupId s = some i) ↔ s ∈ vocab := by
  rw [lookupId_eq_lastIdx]
  constructor
  · rintro ⟨i, hi⟩
    by_contra hmem
    rw [(lastIdx_eq_none_iff vocab s).mpr hmem] at hi
    exact Option.noConfusion hi
  · intro hmem
    cases hx : lastIdx vocab s with
    | some j => exact ⟨Int.ofNat j, by simp [hx]⟩
    | none => exact absurd ((lastIdx_eq_none_iff vocab s).mp hx) (not_not_intro hmem)

theorem contains_iff (vocab : List String) (s : String) :
    ((StringVocab.ofList vocab).Contains s).2 = true ↔ s ∈ vocab := by
  have h1 : ((StringVocab.ofList vocab).Contains s).2 = true ↔
      ∃ p, p ∈ buildIndex vocab ∧ p.1 = s := by
    simp [StringVocab.Contains, StringVocab.ofList, List.any_eq_true]
  have h2 : (mapLookup (buildIndex vocab) s).isSome = true ↔
      ∃ p, p ∈ buildIndex vocab ∧ p.1 = s := by
    simp [mapLookup, List.find?_isSome]
  rw [h1, ← h2, mapLookup_buildIndex]
  constructor
  · intro h
    by_contra hmem
    rw [(lastIdx_eq_none_iff vocab s).mpr hmem] at h
    simp at h
  · intro hmem
    cases hx : lastIdx vocab s with
    | some j => simp [hx]
    | none => exact absurd ((lastIdx_eq_none_iff vocab s).mp hx) (not_not_intro hmem)

/-- The key list of the modelled hash map. -/
def keysOf (m : List IndexEntry) : List String := m.map Prod.fst

theorem keys_nodup_insertIdx (m : List IndexEntry) (k : String) (v : Int)
    (h : (keysOf m).Nodup) : (keysOf (insertIdx m k v)).Nodup := by
  unfold insertIdx keysOf
  simp only [List.map_cons]
  refine List.nodup_cons.mpr ⟨?_, ?_⟩
  · intro hk
    rcases List.mem_map.mp hk with ⟨p, hp, hpk⟩
    have hmem := List.mem_filter.mp hp
    rw [hpk] at hmem
    simp at hmem
  · have hsub : List.Sublist ((m.filter (fun p => !(p.1 == k))).map Prod.fst) (m.map Prod.fst) :=
      (List.filter_sublist m).map Prod.fst
    exact h.sublist hsub

theorem keys_nodup_buildLoop (l : List String) :
    ∀ (k : Nat) (m : List IndexEntry), (keysOf m).Nodup →
    (keysOf ((List.enumFrom k l).foldl (fun m p => insertIdx m p.2 (Int.ofNat p.1)) m)).Nodup := by
  induction l with
  | nil => intro k m h; exact h
  | cons x xs ih =>
    intro k m h
    simp only [List.enumFrom, List.foldl_cons]
    exact ih (k + 1) _ (keys_nodup_insertIdx m x (Int.ofNat k) h)

theorem keys_nodup_buildIndex (l : List String) : (keysOf (buildIndex l)).Nodup :=
  keys_nodup_buildLoop l 0 [] (by simp [keysOf])

theorem mem_keys_buildIndex (l : List String) (s : String) :
    s ∈ keysOf (buildIndex l) ↔ s ∈ l := by
  have h2 : s ∈ keysOf (buildIndex l) ↔ (mapLookup (buildIndex l) s).isSome = true := by
    simp [keysOf, mapLookup, List.find?_isSome, List.mem_map]
  rw [h2, mapLookup_buildIndex]
  constructor
  · intro h
    by_contra hmem
    rw [(lastIdx_eq_none_iff l s).mpr hmem] at h
    simp at h
  · intro hmem
    cases hx : lastIdx l s with
    | some j => simp [hx]
    | none => exact absurd ((lastIdx_eq_none_iff l s).mp hx) (not_not_intro hmem)

theorem size_buildIndex (l : List String) : (buildIndex l).length = l.dedup.length := by
  have h1 : (keysOf (buildIndex l)).length = (buildIndex l).length := List.length_map _ _
  have hnd := keys_nodup_buildIndex l
  have hdd : l.dedup.Nodup := List.nodup_dedup l
  have hfs : (keysOf (buildIndex l)).toFinset = l.dedup.toFinset := by
    apply Finset.ext
    intro a
    simp only [List.mem_toFinset, mem_keys_buildIndex, List.mem_dedup]
  have hc1 := List.toFinset_card_of_nodup hnd
  have hc2 := List.toFinset_card_of_nodup hdd
  rw [hfs] at hc1
  omega

theorem lookupWord_in_range (vocab : List String) (id : Int)
    (h0 : 0 ≤ id) (h1 : id < (vocab.length : Int)) :
    (StringVocab.ofList vocab).LookupWord id = vocab[id.toNat]? ∧
    ((StringVocab.ofList vocab).LookupWord id).isSome = true := by
  have hlt : id.toNat < vocab.length := by omega
  have heq : (StringVocab.ofList vocab).LookupWord id = vocab[id.toNat]? := by
    simp only [StringVocab.LookupWord, StringVocab.ofList]
    rw [if_neg]
    push_neg
    exact ⟨by omega, by omega⟩
  refine ⟨heq, ?_⟩
  rw [heq, List.getElem?_eq_getElem hlt]
  rfl

theorem lookupWord_out_of_range (vocab : List String) (id : Int)
    (h : id < 0 ∨ (vocab.length : Int) ≤ id) :
    (StringVocab.ofList vocab).LookupWord id = none := by
  simp only [StringVocab.LookupWord, StringVocab.ofList]
  rw [if_pos]
  rcases h with h | h
  · exact Or.inr h
  · exact Or.inl h

/-- Claim C2: every phrase string in the configured vocabulary is mapped by
LookupId to a valid id under which LookupWord returns exactly that string,
and for strings outside the vocabulary Contains reports false and LookupId
returns empty. -/
theorem claim_C2_vocab_roundtrip (vocab : List String) :
    (∀ s, s ∈ vocab → ∃ i : Int, (StringVocab.ofList vocab).LookupId s = some i ∧
        (StringVocab.ofList vocab).LookupWord i = some s) ∧
    (∀ s, s ∉ vocab → ((StringVocab.ofList vocab).Contains s).2 = false ∧
        (StringVocab.ofList vocab).LookupId s = none) := by
  constructor
  · intro s hs
    cases hx : lastIdx vocab s with
    | none => exact absurd ((lastIdx_eq_none_iff vocab s).mp hx) (not_not_intro hs)
    | some j =>
      have hch := (lastIdx_eq_some_iff vocab s j).mp hx
      rcases List.getElem?_eq_some_iff.mp hch.1 with ⟨hlt, hget⟩
      refine ⟨Int.ofNat j, ?_, ?_⟩
      · rw [lookupId_eq_lastIdx, hx]
        rfl
      · have h0 : (0 : Int) ≤ Int.ofNat j := by rw [int_ofNat_cast]; omega
        have h1 : Int.ofNat j < (vocab.length : Int) := by rw [int_ofNat_cast]; omega
        rw [(lookupWord_in_range vocab (Int.ofNat j) h0 h1).1]
        have hred : vocab[(Int.ofNat j).toNat]? = vocab[j]? := rfl
        rw [hred, List.getElem?_eq_getElem hlt, hget]
  · intro s hs
    constructor
    · cases hb : ((StringVocab.ofList vocab).Contains s).2 with
      | false => rfl
      | true => exact absurd ((contains_iff vocab s).mp hb) hs
    · rw [lookupId_eq_lastIdx, (lastIdx_eq_none_iff vocab s).mpr hs]
      rfl

theorem claim_C2_witness :
    ("b" ∈ (["a", "b"] : List String)) ∧
    (∃ i : Int, (StringVocab.ofList ["a", "b"]).LookupId "b" = some i ∧
      (StringVocab.ofList ["a", "b"]).LookupWord i = some "b") :=
  ⟨by decide, (claim_C2_vocab_roundtrip ["a", "b"]).1 "b" (by decide)⟩

/-- Claim C5 counterexample: with the duplicate configuration
`["a", "a"]`, the id 1 is not within `[0, Size())` (here `Size() = 1`),
yet `LookupWord 1` is not empty, contradicting the claim that LookupWord
returns empty for every id outside `[0, Size())`. -/
theorem claim_C5_counterexample :
    ¬ ((0 ≤ (1 : Int) ∧ (1 : Int) < (StringVocab.ofList ["a", "a"]).Size) ∨
       (StringVocab.ofList ["a", "a"]).LookupWord 1 = none) := by decide

/-- Claim C5 (amended): LookupWord returns the stored phrase exactly when
`0 ≤ id < vocab_.size()`, the number of stored entries, which can exceed
`Size()` when the configuration contains duplicate strings, and returns
empty otherwise; it is a total function, never raising an error. -/
theorem claim_C5_lookupword_total (vocab : List String) (id : Int) :
    ((0 ≤ id ∧ id < (vocab.length : Int)) →
      (StringVocab.ofList vocab).LookupWord id = vocab[id.toNat]? ∧
      ((StringVocab.ofList vocab).LookupWord id).isSome = true) ∧
    ((id < 0 ∨ (vocab.length : Int) ≤ id) →
      (StringVocab.ofList vocab).LookupWord id = none) :=
  ⟨fun h => lookupWord_in_range vocab id h.1 h.2,
   fun h => lookupWord_out_of_range vocab id h⟩

theorem claim_C5_witness :
    (0 ≤ (0 : Int) ∧ (0 : Int) < ((["a"] : List String).length : Int)) ∧
    ((StringVocab.ofList ["a"]).LookupWord 0 = (["a"] : List String)[(0 : Int).toNat]? ∧
      ((StringVocab.ofList ["a"]).LookupWord 0).isSome = true) :=
  ⟨by decide, (claim_C5_lookupword_total ["a"] 0).1 (by decide)⟩

/-- Claim C6: ids handed out by LookupId are dense in `[0, len(entries))`
and point back at the entry list, and for a string occurring several times
in the configuration LookupId deterministically returns the last-assigned
id, the largest index at which the string occurs. -/
theorem claim_C6_dense_inverse_lastwins (vocab : List String) :
    (∀ (s : String) (i : Int), (StringVocab.ofList vocab).LookupId s = some i →
        0 ≤ i ∧ i < (vocab.length : Int) ∧ vocab[i.toNat]? = some s) ∧
    (∀ (i : Nat) (s : String), vocab[i]? = some s →
        (∀ j : Nat, i < j → vocab[j]? ≠ some s) →
        (StringVocab.ofList vocab).LookupId s = some (Int.ofNat i)) := by
  constructor
  · intro s i hi
    rw [lookupId_eq_lastIdx] at hi
    cases hx : lastIdx vocab s with
    | none =>
      rw [hx] at hi
      exact absurd hi (by simp)
    | some j =>
      rw [hx] at hi
      have hmap : (Option.map Int.ofNat (some j)) = some (Int.ofNat j) := rfl
      rw [hmap] at hi
      have hij : Int.ofNat j = i := by injection hi
      subst hij
      have hch := (lastIdx_eq_some_iff vocab s j).mp hx
      rcases List.getElem?_eq_some_iff.mp hch.1 with ⟨hlt, hget⟩
      refine ⟨by rw [int_ofNat_cast]; omega, by rw [int_ofNat_cast]; omega, ?_⟩
      have hred : vocab[(Int.ofNat j).toNat]? = vocab[j]? := rfl
      rw [hred, List.getElem?_eq_getElem hlt, hget]
  · intro i s h1 h2
    have hx : lastIdx vocab s = some i := (lastIdx_eq_some_iff vocab s i).mpr ⟨h1, h2⟩
    rw [lookupId_eq_lastIdx, hx]
    rfl

theorem claim_C6_witness :
    ((StringVocab.ofList ["a", "b"]).LookupId "b" = some 1) ∧
    (0 ≤ (1 : Int) ∧ (1 : Int) < ((["a", "b"] : List String).length : Int) ∧
      (["a", "b"] : List String)[(1 : Int).toNat]? = some "b") :=
  ⟨by decide, (claim_C6_dense_inverse_lastwins ["a", "b"]).1 "b" 1 (by decide)⟩

/-- Claim C9: Contains always returns the success status, and its boolean
result is true exactly when LookupId on the same string returns some id. -/
theorem claim_C9_contains_never_fails (vocab : List String) (s : String) :
    ((StringVocab.ofList vocab).Contains s).1 = LookupStatus.ok ∧
    (((StringVocab.ofList vocab).Contains s).2 = true ↔
      ∃ i : Int, (StringVocab.ofList vocab).LookupId s = some i) :=
  ⟨rfl, by rw [contains_iff, lookupId_isSome_iff_mem]⟩

/-- Claim C10: constructed from a list with duplicate strings, Size()
counts only the distinct strings and is strictly smaller than the list
length, while LookupWord accepts every id below the list length, so some
ids accepted by LookupWord are at least Size(). -/
theorem claim_C10_duplicate_vocab (vocab : List String) (hdup : ¬ vocab.Nodup) :
    ((StringVocab.ofList vocab).Size = (vocab.dedup.length : Int) ∧
      vocab.dedup.length < vocab.length) ∧
    (∀ id : Int, 0 ≤ id → id < (vocab.length : Int) →
      ((StringVocab.ofList vocab).LookupWord id).isSome = true) ∧
    (∃ id : Int, ((StringVocab.ofList vocab).LookupWord id).isSome = true ∧
      (StringVocab.ofList vocab).Size ≤ id) := by
  have hsize : (StringVocab.ofList vocab).Size = (vocab.dedup.length : Int) := by
    show ((buildIndex vocab).length : Int) = (vocab.dedup.length : Int)
    rw [size_buildIndex]
  have hlt : vocab.dedup.length < vocab.length := by
    have hsub := List.dedup_sublist vocab
    have hle := hsub.length_le
    have hne : vocab.dedup.length ≠ vocab.length := by
      intro he
      exact hdup (List.dedup_eq_self.mp (hsub.eq_of_length he))
    omega
  refine ⟨⟨hsize, hlt⟩, ?_, ?_⟩
  · intro id h0 h1
    exact (lookupWord_in_range vocab id h0 h1).2
  · refine ⟨(vocab.dedup.length : Int), ?_, ?_⟩
    · exact (lookupWord_in_range vocab _ (by omega) (by omega)).2
    · rw [hsize]

theorem claim_C10_witness :
    (¬ (["a", "a"] : List String).Nodup) ∧
    (((StringVocab.ofList ["a", "a"]).Size = ((["a", "a"] : List String).dedup.length : Int) ∧
      (["a", "a"] : List String).dedup.length < (["a", "a"] : List String).length) ∧
    (∀ id : Int, 0 ≤ id → id < ((["a", "a"] : List String).length : Int) →
      ((StringVocab.ofList ["a", "a"]).LookupWord id).isSome = true) ∧
    (∃ id : Int, ((StringVocab.ofList ["a", "a"]).LookupWord id).isSome = true ∧
      (StringVocab.ofList ["a", "a"]).Size ≤ id)) :=
  ⟨by decide, claim_C10_duplicate_vocab ["a", "a"] (by decide)⟩

/-- Modelled from the spec: the implementation-defined unknown id emitted
for an out-of-vocabulary boundary unit; the out-of-vocabulary policy is an
external-collaborator contract, so any fixed marker id serves. -/
def unkId : Int := -1

/-- Modelled from the spec: the phrase-index query listing every
vocabulary phrase that is a prefix of the remaining text, as pairs of
phrase id and matched codepoint length.  A match must cover at least one
codepoint, so empty phrases never match, which underpins the liveness
invariant that every accepted match advances the scan position. -/
def prefixMatches (phrases : List (List Char)) (rest : List Char) : List (Nat × Nat) :=
  phrases.enum.filterMap fun p =>
    if p.2 ≠ [] ∧ p.2 <+: rest then some (p.1, p.2.length) else none

/-- Modelled from the spec: the candidate set at the current scan
position.  When the position sits on a separator codepoint, phrases match
after absorbing the leading separator (the spec: phrases that absorbed a
leading separator reintroduce it on detokenization), and the absorbed
separator counts toward the consumed length. -/
def candidatesAt (isSep : Char → Bool) (phrases : List (List Char)) :
    List Char → List (Nat × Nat)
  | [] => []
  | c :: tail =>
    if isSep c then (prefixMatches phrases tail).map (fun q => (q.1, q.2 + 1))
    else prefixMatches phrases (c :: tail)

/-- Insertion step of the candidate ordering: longest match first, ties
broken toward the lowest id. -/
def insertCand (c : Nat × Nat) : List (Nat × Nat) → List (Nat × Nat)
  | [] => [c]
  | d :: ds =>
    if d.2 < c.2 ∨ (d.2 = c.2 ∧ c.1 < d.1) then c :: d :: ds else d :: insertCand c ds

/-- Candidates ordered longest-first, ties toward the lowest id (the
deterministic tie-break the spec asks implementers to pick). -/
def sortCands (l : List (Nat × Nat)) : List (Nat × Nat) := l.foldr insertCand []

/-- Modelled from the spec: the regularization walk down the ordered
candidate list.  Each draw of the random source either accepts the current
candidate or rejects it in favour of the next-shorter one; the shortest
candidate is always accepted.  With p = 1.0 the rejection probability is
1 - p = 0, so every draw accepts and the longest match is chosen; the
draw stream is abstracted as a boolean oracle indexed by a decision
counter. -/
def chooseCand (draws : Nat → Bool) (k : Nat) (cands : List (Nat × Nat)) :
    Option ((Nat × Nat) × Nat) :=
  match cands with
  | [] => none
  | c :: cs =>
    match cs with
    | [] => some (c, k)
    | _ :: _ => if draws k then some (c, k + 1) else chooseCand draws (k + 1) cs

/-- Modelled from the spec: the out-of-vocabulary fallback of the boundary
collaborator.  When no vocabulary phrase matches, the engine advances by
one boundary unit: the next whitespace-delimited word, together with a
leading separator when the position sits on one.  Returns the emitted word
and the number of codepoints consumed. -/
def oovWord (isSep : Char → Bool) : List Char → List Char × Nat
  | [] => ([], 0)
  | c :: tail =>
    if isSep c then
      (tail.takeWhile (fun d => !isSep d), 1 + (tail.takeWhile (fun d => !isSep d)).length)
    else
      ((c :: tail).takeWhile (fun d => !isSep d),
        ((c :: tail).takeWhile (fun d => !isSep d)).length)

/-- Modelled from the spec: one iteration of the segmentation loop.
Queries the candidates at the current position, applies the regularization
walk to pick one, and emits its phrase string and id; when no phrase
matches, emits the out-of-vocabulary boundary unit under `unkId`.  Returns
the emitted (token, id) pair, the advanced draw counter, and the number of
codepoints consumed. -/
def tokenizeStep (phrases : List (List Char)) (isSep : Char → Bool) (draws : Nat → Bool)
    (k : Nat) (rest : List Char) : (List Char × Int) × Nat × Nat :=
  match chooseCand draws k (sortCands (candidatesAt isSep phrases rest)) with
  | some (c, kk) => ((phrases.getD c.1 [], Int.ofNat c.1), kk, c.2)
  | none =>
    let w := oovWord isSep rest
    ((w.1, unkId), k, w.2)

theorem mem_insertCand (c x : Nat × Nat) (l : List (Nat × Nat)) :
    x ∈ insertCand c l ↔ x = c ∨ x ∈ l := by
  induction l with
  | nil => simp [insertCand]
  | cons d ds ih =>
    unfold insertCand
    by_cases hcond : d.2 < c.2 ∨ (d.2 = c.2 ∧ c.1 < d.1)
    · rw [if_pos hcond]
      simp [List.mem_cons]
    · rw [if_neg hcond]
      simp only [List.mem_cons, ih]
      tauto

theorem mem_sortCands (x : Nat × Nat) (l : List (Nat × Nat)) :
    x ∈ sortCands l ↔ x ∈ l := by
  unfold sortCands
  induction l with
  | nil => simp
  | cons d ds ih =>
    simp only [List.foldr_cons, mem_insertCand, ih, List.mem_cons]

theorem chooseCand_mem (draws : Nat → Bool) :
    ∀ (l : List (Nat × Nat)) (k : Nat) (c : Nat × Nat) (kk : Nat),
    chooseCand draws k l = some (c, kk) → c ∈ l := by
  intro l
  induction l with
  | nil => intro k c kk h; exact absurd h (by simp [chooseCand])
  | cons d ds ih =>
    intro k c kk h
    cases ds with
    | nil =>
      simp only [chooseCand] at h
      injection h with h
      injection h with h1 h2
      subst h1
      exact List.mem_cons_self d []
    | cons e es =>
      simp only [chooseCand] at h
      by_cases hd : draws k = true
      · rw [if_pos hd] at h
        injection h with h
        injection h with h1 h2
        subst h1
        exact List.mem_cons_self d (e :: es)
      · rw [if_neg hd] at h
        exact List.mem_cons_of_mem d (ih (k + 1) c kk h)

theorem prefixMatches_len_pos (phrases : List (List Char)) (rest : List Char)
    (q : Nat × Nat) (h : q ∈ prefixMatches phrases rest) : 1 ≤ q.2 := by
  unfold prefixMatches at h
  rcases List.mem_filterMap.mp h with ⟨p, _, hp⟩
  by_cases hcond : p.2 ≠ [] ∧ p.2 <+: rest
  · rw [if_pos hcond] at hp
    injection hp with hp
    subst hp
    simp only []
    have := List.length_pos.mpr hcond.1
    omega
  · rw [if_neg hcond] at hp
    exact absurd hp (by simp)

theorem candidatesAt_len_pos (isSep : Char → Bool) (phrases : List (List Char))
    (rest : List Char) (q : Nat × Nat) (h : q ∈ candidatesAt isSep phrases rest) :
    1 ≤ q.2 := by
  cases rest with
  | nil => exact absurd h (by simp [candidatesAt])
  | cons c tail =>
    simp only [candidatesAt] at h
    by_cases hsep : isSep c = true
    · rw [if_pos hsep] at h
      rcases List.mem_map.mp h with ⟨r, _, hr⟩
      subst hr
      simp only []
      omega
    · rw [if_neg hsep] at h
      exact prefixMatches_len_pos phrases (c :: tail) q h

theorem oovWord_pos (isSep : Char → Bool) (rest : List Char) (h : rest ≠ []) :
    1 ≤ (oovWord isSep rest).2 := by
  cases rest with
  | nil => exact absurd rfl h
  | cons c tail =>
    simp only [oovWord]
    by_cases hsep : isSep c = true
    · rw [if_pos hsep]
      simp only []
      omega
    · rw [if_neg hsep]
      simp only [List.takeWhile_cons]
      have hns : (!isSep c) = true := by simp [hsep]
      rw [hns]
      simp

theorem tokenizeStep_consumed_pos (phrases : List (List Char)) (isSep : Char → Bool)
    (draws : Nat → Bool) (k : Nat) (rest : List Char) (h : rest ≠ []) :
    1 ≤ (tokenizeStep phrases isSep draws k rest).2.2 := by
  unfold tokenizeStep
  cases hc : chooseCand draws k (sortCands (candidatesAt isSep phrases rest)) with
  | none =>
    simp only []
    exact oovWord_pos isSep rest h
  | some ckk =>
    obtain ⟨c, kk⟩ := ckk
    simp only []
    have hmem := chooseCand_mem draws _ k c kk hc
    rw [mem_sortCands] at hmem
    exact candidatesAt_len_pos isSep phrases rest c hmem

/-- Modelled from the spec: the segmentation loop of
`PhraseTokenizer::Tokenize`, driven by an iteration bound.  Every
iteration consumes at least one codepoint, so a bound equal to the
codepoint count of the input always suffices (proved as the adequacy half
of the liveness theorem); the loop never fails, it only emits tokens. -/
def tokenizeFuel (phrases : List (List Char)) (isSep : Char → Bool) (draws : Nat → Bool) :
    Nat → Nat → List Char → List (List Char × Int)
  | 0, _, _ => []
  | _ + 1, _, [] => []
  | fuel + 1, k, c :: tail =>
    (tokenizeStep phrases isSep draws k (c :: tail)).1 ::
      tokenizeFuel phrases isSep draws fuel
        (tokenizeStep phrases isSep draws k (c :: tail)).2.1
        ((c :: tail).drop (tokenizeStep phrases isSep draws k (c :: tail)).2.2)

/-- The tokenizer configuration the claims exercise: the vocabulary
phrase list and the separator classifier supplied by the external
boundary collaborator. -/
structure PhraseTokenizer where
  vocab_ : List String
  isSep : Char → Bool

/-- Modelled from the spec: `PhraseTokenizer::Tokenize`.  Walks the input
codepoints, emitting the regularization-selected vocabulary match at each
position or the out-of-vocabulary boundary unit, and returns the parallel
token and id sequences.  The random source is the draw oracle; with
p = 1.0 every draw accepts the longest match. -/
def PhraseTokenizer.Tokenize (t : PhraseTokenizer) (draws : Nat → Bool) (input : String) :
    List String × List Int :=
  let out := tokenizeFuel (t.vocab_.map String.toList) t.isSep draws
      input.toList.length 0 input.toList
  (out.map (fun q => q.1.asString), out.map (fun q => q.2))

theorem tokenizeFuel_adequate (phrases : List (List Char)) (isSep : Char → Bool)
    (draws : Nat → Bool) :
    ∀ (f g k : Nat) (rest : List Char), rest.length ≤ f → rest.length ≤ g →
    tokenizeFuel phrases isSep draws f k rest = tokenizeFuel phrases isSep draws g k rest := by
  intro f
  induction f with
  | zero =>
    intro g k rest hf hg
    have hnil : rest = [] := List.eq_nil_of_length_eq_zero (by omega)
    subst hnil
    cases g with
    | zero => rfl
    | succ g => rfl
  | succ f ih =>
    intro g k rest hf hg
    cases rest with
    | nil =>
      cases g with
      | zero => rfl
      | succ g => rfl
    | cons c tail =>
      cases g with
      | zero => exact absurd hg (by simp)
      | succ g =>
        simp only [tokenizeFuel]
        congr 1
        have hpos := tokenizeStep_consumed_pos phrases isSep draws k (c :: tail) (by simp)
        have hdl : ((c :: tail).drop (tokenizeStep phrases isSep draws k (c :: tail)).2.2).length
            = (c :: tail).length - (tokenizeStep phrases isSep draws k (c :: tail)).2.2 := by
          simp
        apply ih
        · omega
        · omega

/-- Claim C7: Tokenize neither fails nor diverges on any input: each
iteration of the segmentation loop consumes at least one codepoint (the
scan position strictly increases), and therefore any iteration bound at
least the codepoint length of the input yields the same completed result
as the bound Tokenize itself uses, so the loop always terminates with a
total result. -/
theorem claim_C7_liveness (phrases : List (List Char)) (isSep : Char → Bool)
    (draws : Nat → Bool) (k : Nat) (rest : List Char) :
    (rest ≠ [] → 1 ≤ (tokenizeStep phrases isSep draws k rest).2.2) ∧
    (∀ fuel : Nat, rest.length ≤ fuel →
      tokenizeFuel phrases isSep draws fuel k rest =
        tokenizeFuel phrases isSep draws rest.length k rest) :=
  ⟨tokenizeStep_consumed_pos phrases isSep draws k rest,
   fun fuel hf =>
     tokenizeFuel_adequate phrases isSep draws fuel rest.length k rest hf (le_refl _)⟩

theorem claim_C7_witness :
    (1 ≤ (tokenizeStep [['a']] (fun _ => false) (fun _ => true) 0 ['a', 'b']).2.2) ∧
    (tokenizeFuel [['a']] (fun _ => false) (fun _ => true) 5 0 ['a', 'b'] =
      tokenizeFuel [['a']] (fun _ => false) (fun _ => true)
        (['a', 'b'] : List Char).length 0 ['a', 'b']) :=
  ⟨(claim_C7_liveness [['a']] (fun _ => false) (fun _ => true) 0 ['a', 'b']).1 (by decide),
   (claim_C7_liveness [['a']] (fun _ => false) (fun _ => true) 0 ['a', 'b']).2 5 (by decide)⟩

/-- The tokenizer of the worked example: the vocabulary of the claim and
whitespace separators. -/
def showTok : PhraseTokenizer :=
  { vocab_ := ["the", "way.", "way", "Show me", "Show"], isSep := Char.isWhitespace }

/-- Claim C1: with vocabulary containing "the", "way.", "way", "Show me"
and "Show" and p = 1.0 (every regularization draw accepts the longest
candidate), Tokenize on "Show me the way." returns exactly the tokens
"Show me", "the", "way.": the two-word phrase is selected over the
shorter "Show" match. -/
theorem claim_C1_longest_match :
    (showTok.Tokenize (fun _ => true) "Show me the way.").1 =
      ["Show me", "the", "way."] := by decide

/-- Claim C8: Tokenize applied to the empty string returns the empty
token sequence and the empty id sequence. -/
theorem claim_C8_empty_input (t : PhraseTokenizer) (draws : Nat → Bool) :
    t.Tokenize draws "" = ([], []) := rfl

/-- The detokenizer error taxonomy of the spec: OutOfRangeId is raised
when a caller-supplied id falls outside the valid vocabulary range. -/
inductive DetokError where
  | OutOfRangeId
deriving DecidableEq

/-- Modelled from the spec: `PhraseTokenizer::DetokenizeToTokens` looks
each id up in the vocabulary and fails with OutOfRangeId as soon as any
id is out of range, producing no partial token sequence. -/
def PhraseTokenizer.DetokenizeToTokens (t : PhraseTokenizer) :
    List Int → Except DetokError (List String)
  | [] => Except.ok []
  | id :: restIds =>
    match (StringVocab.ofList t.vocab_).LookupWord id with
    | none => Except.error DetokError.OutOfRangeId
    | some w =>
      match t.DetokenizeToTokens restIds with
      | Except.ok ws => Except.ok (w :: ws)
      | Except.error e => Except.error e

/-- Modelled from the spec: `PhraseTokenizer::Detokenize` obtains the
token sequence and joins it into one string, reintroducing the separator
between phrases; an OutOfRangeId error propagates unchanged and no
partial text is produced. -/
def PhraseTokenizer.Detokenize (t : PhraseTokenizer) (ids : List Int) :
    Except DetokError String :=
  match t.DetokenizeToTokens ids with
  | Except.ok ws => Except.ok (String.intercalate " " ws)
  | Except.error e => Except.error e

theorem detokToTokens_error (vocab : List String) (sep : Char → Bool) :
    ∀ ids : List Int, (∃ id ∈ ids, id < 0 ∨ (vocab.length : Int) ≤ id) →
    (PhraseTokenizer.mk vocab sep).DetokenizeToTokens ids =
      Except.error DetokError.OutOfRangeId := by
  intro ids
  induction ids with
  | nil =>
    intro h
    rcases h with ⟨i, hmem, _⟩
    exact absurd hmem (by simp)
  | cons j restIds ih =>
    intro h
    rcases h with ⟨i, hmem, hrange⟩
    rcases List.mem_cons.mp hmem with heq | hmem2
    · subst heq
      have hnone := lookupWord_out_of_range vocab i hrange
      simp only [PhraseTokenizer.DetokenizeToTokens, hnone]
    · cases hlw : (StringVocab.ofList vocab).LookupWord j with
      | none => simp only [PhraseTokenizer.DetokenizeToTokens, hlw]
      | some w =>
        have ihres := ih ⟨i, hmem2, hrange⟩
        simp only [PhraseTokenizer.DetokenizeToTokens, hlw, ihres]

/-- Claim C3: an id sequence containing any value below 0 or at least the
vocabulary size makes both Detokenize and DetokenizeToTokens fail with
OutOfRangeId; the error result carries no partial output text. -/
theorem claim_C3_out_of_range (vocab : List String) (sep : Char → Bool) (ids : List Int)
    (h : ∃ id ∈ ids, id < 0 ∨ (vocab.length : Int) ≤ id) :
    (PhraseTokenizer.mk vocab sep).DetokenizeToTokens ids =
        Except.error DetokError.OutOfRangeId ∧
    (PhraseTokenizer.mk vocab sep).Detokenize ids =
        Except.error DetokError.OutOfRangeId := by
  have hmain := detokToTokens_error vocab sep ids h
  exact ⟨hmain, by simp only [PhraseTokenizer.Detokenize, hmain]⟩

theorem claim_C3_witness :
    (∃ id ∈ ([5] : List Int), id < 0 ∨ ((["a"] : List String).length : Int) ≤ id) ∧
    ((PhraseTokenizer.mk ["a"] Char.isWhitespace).DetokenizeToTokens [5] =
        Except.error DetokError.OutOfRangeId ∧
      (PhraseTokenizer.mk ["a"] Char.isWhitespace).Detokenize [5] =
        Except.error DetokError.OutOfRangeId) :=
  ⟨by decide, claim_C3_out_of_range ["a"] Char.isWhitespace [5] (by decide)⟩

/-- Claim C4: for a sequence of ids all within the vocabulary range,
DetokenizeToTokens succeeds and returns exactly the vocabulary phrases at
those ids, in the same order. -/
theorem claim_C4_roundtrip (vocab : List String) (sep : Char → Bool) (ids : List Int)
    (h : ∀ id ∈ ids, 0 ≤ id ∧ id < (vocab.length : Int)) :
    (PhraseTokenizer.mk vocab sep).DetokenizeToTokens ids =
      Except.ok (ids.map fun id => vocab.getD id.toNat "") := by
  induction ids with
  | nil => rfl
  | cons id restIds ih =>
    have hid := h id (List.mem_cons_self id restIds)
    have hrest : ∀ i ∈ restIds, 0 ≤ i ∧ i < (vocab.length : Int) :=
      fun i hi => h i (List.mem_cons_of_mem id hi)
    have hlt : id.toNat < vocab.length := by omega
    have hgd : vocab.getD id.toNat "" = vocab[id.toNat] := by
      rw [List.getD_eq_getElem?_getD, List.getElem?_eq_getElem hlt]
      rfl
    have hw : (StringVocab.ofList vocab).LookupWord id = some (vocab.getD id.toNat "") := by
      rw [(lookupWord_in_range vocab id hid.1 hid.2).1, List.getElem?_eq_getElem hlt, hgd]
    simp only [PhraseTokenizer.DetokenizeToTokens, hw, ih hrest, List.map_cons]

theorem claim_C4_witness :
    (∀ id ∈ ([1, 0] : List Int), 0 ≤ id ∧ id < ((["a", "b"] : List String).length : Int)) ∧
    ((PhraseTokenizer.mk ["a", "b"] Char.isWhitespace).DetokenizeToTokens [1, 0] =
      Except.ok (([1, 0] : List Int).map fun id => (["a", "b"] : List String).getD id.toNat "")) :=
  ⟨by decide, claim_C4_roundtrip ["a", "b"] Char.isWhitespace [1, 0] (by decide)⟩
